import Mathlib

/-!
Verification development for a ROS 2 bag-to-CSV conversion tool
(source: rosbag_to_csv.py).

The development shallowly embeds the four components of the tool:
  * the recursive field flattener `_gen_msg_values`   (here `genMsgValues`),
  * the per-bag dump engine `dump_bag`                (here `stepMsg` / `runMsgs` / `dump_bag`),
  * bag detection and discovery `is_rosbag_dir` / `find_rosbags`,
  * the directory orchestrator `main` / `process_structured_bags` (here `mainPlan`).

Modelling conventions:
  * Decoded messages are a sum type `RosValue` mirroring the duck-typed
    dispatch of the Python code: python lists, structured messages with
    declared field types, and scalar leaves.
  * Timestamps and row times are modelled as exact rationals; the Python
    code computes with IEEE floats, whose rounding is not modelled.
  * A message deserialisation failure (an exception in Python) is modelled
    by `Record.data = none`; the dump loop then stops in an error state
    that keeps the files opened so far, exactly as an unhandled Python
    exception would leave OS-level file handles unclosed by `dump_bag`.
  * Filesystem trees are finite trees of named entries; `exists()` and
    glob matching are name-based, as in the source.
  * Paths are lists of components relative to the directory the
    orchestrator starts from.
-/

/-! ### Scalar leaf values -/

/-- A scalar leaf of a decoded message: the possible primitive Python values
stringified into CSV cells. -/
inductive Prim where
  | int (n : ℤ)
  | flt (q : ℚ)
  | str (s : String)
  | bool (b : Bool)
deriving DecidableEq

/-- Decimal-free rendering of a rational used for the synthetic time column.
Python prints floats in decimal notation; the exact digits are idealised
here, but like the Python rendering the result never contains a comma. -/
def ratStr (q : ℚ) : String :=
  if q.den = 1 then toString q.num else toString q.num ++ "/" ++ toString q.den

/-- Models Python str() on a scalar field value. -/
def primStr : Prim → String
  | .int n => toString n
  | .flt q => ratStr q
  | .str s => s
  | .bool b => if b then "True" else "False"

/-! ### Decoded messages

`RosValue` is the value universe the flattener dispatches on:
`isinstance(msg, list)` corresponds to `pylist`, having
`get_fields_and_field_types` corresponds to `struct` (an ordered field
list, each with its declared type string), everything else is a scalar
leaf. The list and field spines are dedicated inductives so that all
recursions below are structural and compute inside the kernel. -/

mutual
inductive RosValue where
  | prim (p : Prim) : RosValue
  | pylist (xs : RosList) : RosValue
  | struct (fs : RosFields) : RosValue
inductive RosList where
  | nil : RosList
  | cons (hd : RosValue) (tl : RosList) : RosList
inductive RosFields where
  | nil : RosFields
  | cons (name ty : String) (val : RosValue) (rest : RosFields) : RosFields
end

/-- Bool test that string `s` starts with `pre` (kernel-computable model of
str.startswith). -/
def strStartsWith (s pre : String) : Bool := pre.data.isPrefixOf s.data

/-- Bool test that string `s` ends with `suf` (kernel-computable model of
the *.db3 glob match: any entry name with that suffix matches). -/
def strEndsWith (s suf : String) : Bool := suf.data.isSuffixOf s.data

/-- Dotted path for a field: f-string `{prefix}.{field}` if the prefix is
nonempty, else the bare field name (source line 54). -/
def fieldPath (pre f : String) : String := if pre = "" then f else pre ++ "." ++ f

/-- Indexed path for an array element: f-string `{prefix}[{i}]`. -/
def indexPath (pre : String) (i : ℕ) : String := pre ++ "[" ++ toString i ++ "]"

mutual
/-- The flattener `_gen_msg_values(msg, prefix)` (source lines 38-61):
python lists recurse element-wise with indexed paths; structured messages
recurse field-wise in declared order, iterating sequence-typed fields
element-wise; anything else is yielded as a `(prefix, value)` leaf. -/
def genMsgValues : RosValue → String → List (String × Prim)
  | .prim v, pre => [(pre, v)]
  | .pylist xs, pre => genSeq xs pre 0
  | .struct fs, pre => genFields fs pre
/-- Enumeration `for i, val in enumerate(xs)` recursing with `{prefix}[{i}]`. -/
def genSeq : RosList → String → ℕ → List (String × Prim)
  | .nil, _, _ => []
  | .cons x rest, pre, i => genMsgValues x (indexPath pre i) ++ genSeq rest pre (i + 1)
/-- Field loop over `get_fields_and_field_types()` in declared order.
A field whose declared type starts with `sequence<` is iterated
element-wise; in the modelled (well-typed) domain such a value is always a
python list, so the non-list sequence case — where Python would raise a
TypeError — yields nothing. -/
def genFields : RosFields → String → List (String × Prim)
  | .nil, _ => []
  | .cons f ty v rest, pre =>
      (if strStartsWith ty "sequence<" then
        (match v with
         | .pylist xs => genSeq xs (fieldPath pre f) 0
         | _ => [])
      else genMsgValues v (fieldPath pre f)) ++ genFields rest pre
end

/-! ### Attribute access on decoded messages -/

/-- Bool test for a named field in a field list. -/
def hasField : RosFields → String → Bool
  | .nil, _ => false
  | .cons f _ _ rest, name => f == name || hasField rest name

/-- hasattr(msg, "header"): only structured messages expose message fields,
and only the presence of the attribute named `header` is tested. -/
def hasHeaderAttr : RosValue → Bool
  | .struct fs => hasField fs "header"
  | _ => false

/-- Field lookup inside a field list (first match). -/
def getFieldVal : RosFields → String → Option RosValue
  | .nil, _ => none
  | .cons f _ v rest, name => if f == name then some v else getFieldVal rest name

/-- getattr: `none` models the AttributeError an access on a value without
that attribute raises. -/
def getAttr : RosValue → String → Option RosValue
  | .struct fs, name => getFieldVal fs name
  | _, _ => none

/-- Numeric coercion of a leaf, as used by the `sec + 1e-9 * nanosec`
arithmetic; a non-numeric value models a Python TypeError (`none`). -/
def asNum : RosValue → Option ℚ
  | .prim (.int n) => some (n : ℚ)
  | .prim (.flt q) => some q
  | .prim (.bool b) => some (if b then 1 else 0)
  | _ => none

/-- The header-based timestamp `msg.header.stamp.sec + 1e-9 *
msg.header.stamp.nanosec` (source line 113); `none` models the exception
raised when the nested stamp structure is missing or non-numeric. -/
def headerStamp (m : RosValue) : Option ℚ :=
  match getAttr m "header" with
  | none => none
  | some h =>
    match getAttr h "stamp" with
    | none => none
    | some st =>
      match (getAttr st "sec").bind asNum, (getAttr st "nanosec").bind asNum with
      | some sec, some ns => some (sec + (1 : ℚ)/1000000000 * ns)
      | _, _ => none

/-! ### Flattened header fields and row values -/

/-- Filter excluding any flattened path that starts with `header.`
(source lines 105 and 122). -/
def notHeaderField (f : String) : Bool := !(strStartsWith f "header.")

/-- The flattened (path, value) pairs of a message that survive the
`header.` exclusion. -/
def flatPairs (m : RosValue) : List (String × Prim) :=
  (genMsgValues m "").filter (fun p => notHeaderField p.1)

/-- The CSV header fields derived from a message (source lines 104-105). -/
def flatPaths (m : RosValue) : List String := (flatPairs m).map (fun p => p.1)

/-- The stringified row values of a message (source lines 121-122). -/
def flatVals (m : RosValue) : List String := (flatPairs m).map (fun p => primStr p.2)

/-! ### The dump engine -/

/-- One `(topic, data, timestamp)` triple delivered by
`reader.read_next()`. `data = none` models a message whose
deserialisation raises. The bag-recorded timestamp is carried as an exact
rational. -/
structure Record where
  topic : String
  data : Option RosValue
  timestamp : ℚ

/-- The fixed skip set SKIP_TOPICS (source line 85). -/
def isSkip (t : String) : Bool := t == "/rosout" || t == "/parameter_events"

/-- Output file name: the topic with leading slashes stripped, remaining
slashes replaced by underscores, and a .csv extension (source line 101). -/
def csvFileName (topic : String) : String :=
  String.mk ((topic.data.dropWhile (fun c => c == '/')).map
    (fun c => if c == '/' then '_' else c)) ++ ".csv"

/-- One open output file of a dump pass: its topic key, file name, header
fields (the `time` column is implicit and rendered by `headerLine`), the
data rows written so far as (relative time, stringified values), and
whether the file has been closed. -/
structure OutFile where
  topic : String
  fname : String
  header : List String
  rows : List (ℚ × List String)
  closed : Bool

/-- The in-progress state of one dump pass: the open files (the insertion
ordered `file_map`), the pass-wide `start_time` (None until the first
non-skipped message is processed), and the processed-message counter. -/
structure DumpState where
  files : List OutFile
  startTime : Option ℚ
  msgCount : ℕ

/-- `topic in file_map`. -/
def hasFileFor (files : List OutFile) (topic : String) : Bool :=
  files.any (fun f => f.topic == topic)

/-- The file opened on first observation of a topic, with the header
derived from that first message. -/
def newOutFile (topic : String) (m : RosValue) : OutFile :=
  { topic := topic, fname := csvFileName topic,
    header := flatPaths m, rows := [], closed := false }

/-- First observation of a topic: open its file and write the header
derived from this (first) message (source lines 100-107). -/
def ensureFile (files : List OutFile) (topic : String) (m : RosValue) : List OutFile :=
  if hasFileFor files topic then files else files ++ [newOutFile topic m]

/-- Append a data row to the file of the given topic. -/
def appendRow (files : List OutFile) (topic : String) (row : ℚ × List String) :
    List OutFile :=
  files.map (fun f => if f.topic == topic then { f with rows := f.rows ++ [row] } else f)

/-- The timestamp a record resolves to: the header stamp when the decoded
message has a `header` attribute, otherwise the bag-recorded timestamp
verbatim; `none` when decoding or the stamp access fails (source lines
111-115). -/
def resolveTime (r : Record) : Option ℚ :=
  match r.data with
  | none => none
  | some m => if hasHeaderAttr m then headerStamp m else some r.timestamp

/-- One iteration of the `while reader.has_next()` loop (source lines
90-127): skip check, decode, file/header creation, timestamp resolution,
start-time latching, row append. An `error` result models an exception
propagating out of `dump_bag`, carrying the state (and hence the files
left open) at that moment. -/
def stepMsg (s : DumpState) (r : Record) : Except DumpState DumpState :=
  if isSkip r.topic then .ok s
  else
    match r.data with
    | none => .error s
    | some m =>
      let files1 := ensureFile s.files r.topic m
      match (if hasHeaderAttr m then headerStamp m else some r.timestamp) with
      | none => .error { s with files := files1 }
      | some t =>
        let st := s.startTime.getD t
        .ok { files := appendRow files1 r.topic (t - st, flatVals m),
              startTime := some st,
              msgCount := s.msgCount + 1 }

/-- The message loop, threading the state until the records are exhausted
or a step fails. -/
def runMsgs : DumpState → List Record → Except DumpState DumpState
  | s, [] => .ok s
  | s, r :: rest =>
    match stepMsg s r with
    | .ok s1 => runMsgs s1 rest
    | .error s1 => .error s1

/-- The state carried by either outcome of the loop. -/
def resultState : Except DumpState DumpState → DumpState
  | .ok s => s
  | .error s => s

/-- The initial state of a dump pass. -/
def initState : DumpState := { files := [], startTime := none, msgCount := 0 }

/-- The state in which a dump pass over the given records ends, whether it
completes or aborts. -/
def finalState (records : List Record) : DumpState :=
  resultState (runMsgs initState records)

/-- The observable outcome of `dump_bag`: the output files, and the
returned topic count (`some` on normal completion, `none` when the pass
aborts with an exception). -/
structure DumpOutcome where
  files : List OutFile
  result : Option ℕ

/-- `dump_bag` over the sequence of records a bag yields: run the message
loop; on normal completion close every open file and return
`len(file_map)` (source lines 129-133); on an abort the exception
propagates before the close loop runs, leaving the files open. -/
def dump_bag (records : List Record) : DumpOutcome :=
  match runMsgs initState records with
  | .ok s => { files := s.files.map (fun f => { f with closed := true }),
               result := some s.files.length }
  | .error s => { files := s.files, result := none }

/-- The resolved timestamp of the first record outside the skip set, if
any: the value `start_time` latches onto. -/
def firstResolved (records : List Record) : Option ℚ :=
  (records.find? (fun r => !isSkip r.topic)).bind resolveTime

/-! ### Rendering of CSV lines

`print(x, file=f)` writes one line; a row line is the comma-join of the
relative time and the stringified values, the header line is the literal
`"time,"` concatenated with the comma-join of the fields (source lines
106 and 123). The number of columns of an unquoted CSV line is one more
than the number of commas in it. -/

/-- Python `",".join(l)`. -/
def joinComma : List String → String
  | [] => ""
  | [x] => x
  | x :: y :: rest => x ++ "," ++ joinComma (y :: rest)

/-- The header line `"time," + ",".join(fields)` (source line 106). -/
def headerLine (fields : List String) : String := "time," ++ joinComma fields

/-- A data row line `",".join([str(relative_time)] + values)` (source
line 123). -/
def rowLine (t : ℚ) (vals : List String) : String := joinComma (ratStr t :: vals)

/-- Number of commas in a string. -/
def commaCount (s : String) : ℕ := s.data.count ','

/-- Number of CSV columns of an unquoted line. -/
def numCols (line : String) : ℕ := commaCount line + 1

/-- The full text content of an output file, line by line. -/
def fileLines (f : OutFile) : List String :=
  headerLine f.header :: f.rows.map (fun row => rowLine row.1 row.2)

/-! ### Filesystem model, bag detection and discovery -/

mutual
/-- A filesystem node: a plain file, or a directory with an ordered entry
list. -/
inductive FSNode where
  | file : FSNode
  | dir (es : FSEntries) : FSNode
/-- The named entries of a directory. -/
inductive FSEntries where
  | nil : FSEntries
  | cons (name : String) (node : FSNode) (rest : FSEntries) : FSEntries
end

/-- Entry list as an ordinary list, for stating theorems. -/
def FSEntries.toList : FSEntries → List (String × FSNode)
  | .nil => []
  | .cons name node rest => (name, node) :: rest.toList

/-- `(path / name).exists()`: an entry of that exact name is present. -/
def hasEntry : FSEntries → String → Bool
  | .nil, _ => false
  | .cons s _ rest, name => s == name || hasEntry rest name

/-- `any(path.glob("*.db3"))`: some entry name ends in .db3. -/
def hasDb3Entry : FSEntries → Bool
  | .nil => false
  | .cons s _ rest => strEndsWith s ".db3" || hasDb3Entry rest

/-- The two structural markers checked inside a directory. -/
def isBagEntries (es : FSEntries) : Bool :=
  hasEntry es "metadata.yaml" && hasDb3Entry es

/-- `is_rosbag_dir` (source lines 136-154): false for non-directories,
else both a metadata.yaml entry and at least one *.db3 entry must be
present in the immediate directory. -/
def is_rosbag_dir : FSNode → Bool
  | .file => false
  | .dir es => isBagEntries es

mutual
/-- The `os.walk` traversal of `find_rosbags` (source lines 169-174): a
visited directory that is a bag is collected and its subtree pruned
(`dirnames.clear()`); otherwise the walk descends into its entries.
Walking a non-directory yields nothing, as `os.walk` does. -/
def walkCollect : FSNode → List String → List (List String)
  | .file, _ => []
  | .dir es, p => if isBagEntries es then [p] else walkChildren es p
/-- Descent into the entries of a non-bag directory. -/
def walkChildren : FSEntries → List String → List (List String)
  | .nil, _ => []
  | .cons n c rest, p => walkCollect c (p ++ [n]) ++ walkChildren rest p
end

/-- Code-point comparison of two character lists: the lexicographic order
Python uses on path strings and their components. -/
def chListLe : List Char → List Char → Bool
  | [], _ => true
  | _ :: _, [] => false
  | a :: as, b :: bs => if a < b then true else if b < a then false else chListLe as bs

/-- Lexicographic comparison of two paths, component-wise: the order
`sorted` puts pathlib paths in. -/
def pathLe : List String → List String → Bool
  | [], _ => true
  | _ :: _, [] => false
  | a :: as, b :: bs => if a = b then pathLe as bs else chListLe a.data b.data

/-- Sorted insertion with respect to `pathLe`. -/
def insertPath (x : List String) : List (List String) → List (List String)
  | [] => [x]
  | y :: ys => if pathLe x y then x :: y :: ys else y :: insertPath x ys

/-- The `sorted(...)` call of `find_rosbags` (source line 176). -/
def sortPaths (l : List (List String)) : List (List String) := l.foldr insertPath []

/-- `find_rosbags(root)`: every bag directory found by the pruned walk of
the tree under `root`, in sorted order. The node is the filesystem tree
rooted at `root` and the returned paths start with the given root path. -/
def find_rosbags (n : FSNode) (root : List String) : List (List String) :=
  sortPaths (walkCollect n root)

mutual
/-- Recursive well-formedness of a filesystem tree: within any directory
the entry names are distinct, as real filesystems guarantee. -/
def FSWF : FSNode → Bool
  | .file => true
  | .dir es => decide ((es.toList.map (fun e => e.1)).Nodup) && FSWFEntries es
/-- Well-formedness of every node in an entry list. -/
def FSWFEntries : FSEntries → Bool
  | .nil => true
  | .cons _ n rest => FSWF n && FSWFEntries rest
end

/-! ### The directory orchestrator -/

/-- `bag_path.relative_to(root_path)` for a bag found under the root
(source line 189): drop the shared root components. -/
def get_relative_structure (bag root : List String) : List String :=
  bag.drop root.length

/-- First entry of the given name, as `input_path / name` resolves it. -/
def lookupEntry : FSEntries → String → Option FSNode
  | .nil, _ => none
  | .cons s n rest, name => if s == name then some n else lookupEntry rest name

/-- An observable filesystem action the orchestrator performs: creating a
directory (with exist_ok, and intermediate directories created by the
dump via os.makedirs), or dumping one bag into one output directory. -/
inductive Effect where
  | mkdir (p : List String) : Effect
  | dump (bag : List String) (out : List String) : Effect
deriving DecidableEq

/-- The actions the orchestrator performs, and whether it succeeds
(`ok = false` models sys.exit(1)). -/
structure Plan where
  effects : List Effect
  ok : Bool
deriving DecidableEq

/-- `process_structured_bags` (source lines 204-237) on the entries of the
input directory: require the `ros2bag` entry, create `csv` (exist_ok),
find all bags beneath `ros2bag`, fail if there are none, else dump each
bag into `csv` extended with the bag path relative to `ros2bag`. -/
def process_structured_bags (es : FSEntries) : Plan :=
  match lookupEntry es "ros2bag" with
  | none => { effects := [], ok := false }
  | some rb =>
    let bags := find_rosbags rb ["ros2bag"]
    if bags.isEmpty then { effects := [Effect.mkdir ["csv"]], ok := false }
    else { effects := Effect.mkdir ["csv"] ::
             bags.map (fun b => Effect.dump b ("csv" :: get_relative_structure b ["ros2bag"])),
           ok := true }

/-- `main` (source lines 240-311) on an existing input path, with paths
relative to the input: a bag directory is dumped into itself; else a
directory containing a `ros2bag` entry is processed in structured mode;
else bags found directly under the input are mirrored into a `csv`
directory; else the run fails. -/
def mainPlan (input : FSNode) : Plan :=
  match input with
  | .file => { effects := [], ok := false }
  | .dir es =>
    if is_rosbag_dir (.dir es) then { effects := [Effect.dump [] []], ok := true }
    else if (lookupEntry es "ros2bag").isSome then process_structured_bags es
    else
      let bags := find_rosbags (.dir es) []
      if bags.isEmpty then { effects := [], ok := false }
      else { effects := Effect.mkdir ["csv"] ::
               bags.map (fun b => Effect.dump b ("csv" :: get_relative_structure b [])),
             ok := true }

/-! ### Induction helper for entry lists -/

/-- List-style induction over `FSEntries` (the joint recursor of the
mutual inductives needs no node motive here). -/
def fsEntriesInd {motive : FSEntries → Prop} (hnil : motive .nil)
    (hcons : ∀ s n rest, motive rest → motive (.cons s n rest)) :
    ∀ es, motive es
  | .nil => hnil
  | .cons s n rest => hcons s n rest (fsEntriesInd hnil hcons rest)

/-! ### Invariant predicates relating dump output to the input records -/

/-- A header field list is justified by some decoded message of the topic
in the given records. -/
def HeaderWitness (records : List Record) (T : String) (hdr : List String) : Prop :=
  ∃ r ∈ records, r.topic = T ∧ ∃ m, r.data = some m ∧ hdr = flatPaths m

/-- A data row is justified by a record of its topic: the record decodes,
resolves to the time `row.1 + t0`, and flattens to the row values. -/
def RowWitness (records : List Record) (t0 : ℚ) (T : String) (row : ℚ × List String) : Prop :=
  ∃ r ∈ records, r.topic = T ∧ ∃ m, r.data = some m ∧
    resolveTime r = some (row.1 + t0) ∧ row.2 = flatVals m

/-- The dump invariant: every open file belongs to a non-skipped topic,
its header comes from a decoded message of that topic, and each of its
rows is justified by a record relative to the latched start time. -/
def FilesOK (records : List Record) (st : Option ℚ) (files : List OutFile) : Prop :=
  ∀ f ∈ files, isSkip f.topic = false ∧ HeaderWitness records f.topic f.header ∧
    ∀ row ∈ f.rows, ∃ t0, st = some t0 ∧ RowWitness records t0 f.topic row

/-! ### Concrete inputs used by witnesses and counterexamples -/

/-- A one-field message `{x: 7}`. -/
def msgX : RosValue := .struct (.cons "x" "int32" (.prim (.int 7)) .nil)

/-- The nested message `{pose: {position: {x: 1, y: 2, z: 3}}}`. -/
def msgPose : RosValue :=
  .struct (.cons "pose" "geometry_msgs/Pose"
    (.struct (.cons "position" "geometry_msgs/Point"
      (.struct (.cons "x" "double" (.prim (.int 1))
        (.cons "y" "double" (.prim (.int 2))
          (.cons "z" "double" (.prim (.int 3)) .nil)))) .nil)) .nil)

/-- A message with a header stamp of 10 s + 1 ns and payload `{x: 3}`. -/
def msgWithHeader : RosValue :=
  .struct (.cons "header" "std_msgs/Header"
    (.struct (.cons "stamp" "builtin_interfaces/Time"
      (.struct (.cons "sec" "int32" (.prim (.int 10))
        (.cons "nanosec" "uint32" (.prim (.int 1)) .nil))) .nil))
    (.cons "x" "int32" (.prim (.int 3)) .nil))

/-- A message that has a `header` attribute whose value is not a message
with a stamp, so the header branch raises instead of falling back. -/
def msgBadHeader : RosValue := .struct (.cons "header" "X" (.prim (.int 0)) .nil)

/-- A message with no fields at all (flattens to nothing). -/
def msgEmpty : RosValue := .struct .nil

/-- A pass whose second message fails to decode after a file was opened. -/
def recsAbort : List Record :=
  [{ topic := "/a", data := some msgX, timestamp := 5 },
   { topic := "/a", data := none, timestamp := 6 }]

/-- A pass of one well-formed message. -/
def recsOk : List Record :=
  [{ topic := "/a", data := some msgX, timestamp := 5 }]

/-- A pass that starts with a skipped topic and then carries two topics. -/
def recsTimeline : List Record :=
  [{ topic := "/rosout", data := some msgX, timestamp := 1 },
   { topic := "/a", data := some msgX, timestamp := 5 },
   { topic := "/b", data := some msgX, timestamp := 9 }]

/-- A pass with messages on a skipped topic and one real topic. -/
def recsSkip : List Record :=
  [{ topic := "/rosout", data := some msgX, timestamp := 1 },
   { topic := "/a", data := some msgX, timestamp := 2 },
   { topic := "/parameter_events", data := some msgX, timestamp := 3 }]

/-- A pass whose only topic flattens to no fields. -/
def recsNoFields : List Record :=
  [{ topic := "/t", data := some msgEmpty, timestamp := 3 }]

/-- A field-set-stable pass with two messages of the same topic. -/
def recsStable : List Record :=
  [{ topic := "/t", data := some msgX, timestamp := 3 },
   { topic := "/t", data := some msgX, timestamp := 4 }]

/-- A pass mixing a header-stamped message with a headerless one. -/
def recsMix : List Record :=
  [{ topic := "/h", data := some msgWithHeader, timestamp := 999 },
   { topic := "/n", data := some msgX, timestamp := 2 }]

/-- A pass whose only message has a malformed header. -/
def recsBadHeader : List Record :=
  [{ topic := "/h", data := some msgBadHeader, timestamp := 7 }]

/-- A filesystem directory that is a bag. -/
def bagNode : FSNode :=
  .dir (.cons "metadata.yaml" .file (.cons "part0.db3" .file .nil))

/-- A tree with a bag at `a` and a bag at `b` that contains a nested bag
at `b/c` (which pruning must hide). -/
def fsNested : FSNode :=
  .dir (.cons "a" bagNode
    (.cons "b" (.dir (.cons "metadata.yaml" .file
      (.cons "part0.db3" .file
        (.cons "c" bagNode .nil)))) .nil))

/-- The `ros2bag` subtree of the structured project example:
`cfg1/trial_1` and `cfg1/trial_2` are bags. -/
def rbNode : FSNode :=
  .dir (.cons "cfg1"
    (.dir (.cons "trial_1" bagNode (.cons "trial_2" bagNode .nil))) .nil)

/-- Entries of a structured project tree: a `ros2bag` subtree of bags and
a `csv` directory. -/
def fsStructuredEntries : FSEntries :=
  .cons "ros2bag" rbNode (.cons "csv" (.dir .nil) .nil)

/-- A structured project tree: `ros2bag/cfg1/trial_1` and
`ros2bag/cfg1/trial_2` are bags, and a `csv` directory already exists. -/
def fsStructured : FSNode := .dir fsStructuredEntries

/-! ## Theorems -/

/-! ### C2: the flattener on a deeply nested message -/

/-- C2: flattening the decoded message `{pose: {position: {x:1, y:2, z:3}}}`
yields exactly the three leaves `pose.position.x`, `pose.position.y`,
`pose.position.z` with their values, in the declared field order, with
dotted paths concatenating the enclosing field names. -/
theorem flatten_nested_pose_example :
    genMsgValues msgPose "" =
      [("pose.position.x", Prim.int 1), ("pose.position.y", Prim.int 2),
       ("pose.position.z", Prim.int 3)] := by decide

/-! ### C4: characterisation of is_rosbag_dir -/

theorem hasEntry_iff (es : FSEntries) (name : String) :
    hasEntry es name = true ↔ ∃ e ∈ es.toList, e.1 = name := by
  induction es using fsEntriesInd with
  | hnil => simp [hasEntry, FSEntries.toList]
  | hcons s n rest ih =>
      simp [hasEntry, FSEntries.toList, ih, Bool.or_eq_true, beq_iff_eq]

theorem hasDb3Entry_iff (es : FSEntries) :
    hasDb3Entry es = true ↔ ∃ e ∈ es.toList, strEndsWith e.1 ".db3" = true := by
  induction es using fsEntriesInd with
  | hnil => simp [hasDb3Entry, FSEntries.toList]
  | hcons s n rest ih =>
      simp [hasDb3Entry, FSEntries.toList, ih, Bool.or_eq_true]

/-- C4: `is_rosbag_dir` holds exactly on directories that directly contain
an entry named `metadata.yaml` and at least one entry whose name ends in
`.db3`; in particular it is false on non-directories, on an empty
directory, and on a directory with only one of the two markers. -/
theorem is_rosbag_dir_iff :
    (∀ n : FSNode,
      (is_rosbag_dir n = true ↔
        ∃ es, n = FSNode.dir es ∧
          (∃ e ∈ es.toList, e.1 = "metadata.yaml") ∧
          (∃ e ∈ es.toList, strEndsWith e.1 ".db3" = true))) ∧
    is_rosbag_dir FSNode.file = false ∧
    is_rosbag_dir (FSNode.dir .nil) = false := by
  refine ⟨?_, rfl, by decide⟩
  intro n
  cases n with
  | file => simp [is_rosbag_dir]
  | dir es =>
      simp only [is_rosbag_dir, isBagEntries, Bool.and_eq_true, hasEntry_iff,
        hasDb3Entry_iff]
      constructor
      · rintro ⟨h1, h2⟩; exact ⟨es, rfl, h1, h2⟩
      · rintro ⟨es2, heq, h1, h2⟩
        cases heq
        exact ⟨h1, h2⟩

/-! ### Lexicographic path order and sorting (towards C5 and C6) -/

theorem chListLe_total (a : List Char) : ∀ b, chListLe a b = true ∨ chListLe b a = true := by
  induction a with
  | nil => intro b; left; rfl
  | cons x xs ih =>
      intro b
      cases b with
      | nil => right; rfl
      | cons y ys =>
          by_cases hxy : x < y
          · left; simp [chListLe, hxy]
          · by_cases hyx : y < x
            · right; simp [chListLe, hyx]
            · have hx : x = y := by
                rcases lt_trichotomy x y with h | h | h
                · exact absurd h hxy
                · exact h
                · exact absurd h hyx
              subst hx
              rcases ih ys with h | h
              · left; simpa [chListLe, lt_irrefl] using h
              · right; simpa [chListLe, lt_irrefl] using h

theorem chListLe_antisymm (a : List Char) :
    ∀ b, chListLe a b = true → chListLe b a = true → a = b := by
  induction a with
  | nil =>
      intro b hab hba
      cases b with
      | nil => rfl
      | cons y ys => simp [chListLe] at hba
  | cons x xs ih =>
      intro b hab hba
      cases b with
      | nil => simp [chListLe] at hab
      | cons y ys =>
          by_cases hxy : x < y
          · simp [chListLe, hxy, lt_asymm hxy] at hba
          · by_cases hyx : y < x
            · simp [chListLe, hxy, hyx] at hab
            · have hx : x = y := by
                rcases lt_trichotomy x y with h | h | h
                · exact absurd h hxy
                · exact h
                · exact absurd h hyx
              subst hx
              simp only [chListLe, lt_irrefl, if_false] at hab hba
              rw [ih ys hab hba]

theorem chListLe_trans (a : List Char) :
    ∀ b c, chListLe a b = true → chListLe b c = true → chListLe a c = true := by
  induction a with
  | nil => intro b c hab hbc; rfl
  | cons x xs ih =>
      intro b c hab hbc
      cases b with
      | nil => simp [chListLe] at hab
      | cons y ys =>
          cases c with
          | nil => simp [chListLe] at hbc
          | cons z zs =>
              by_cases hxy : x < y
              · by_cases hyz : y < z
                · simp [chListLe, lt_trans hxy hyz]
                · by_cases hzy : z < y
                  · simp [chListLe, hyz, hzy] at hbc
                  · have : y = z := by
                      rcases lt_trichotomy y z with h | h | h
                      · exact absurd h hyz
                      · exact h
                      · exact absurd h hzy
                    subst this
                    simp [chListLe, hxy]
              · by_cases hyx : y < x
                · simp [chListLe, hxy, hyx] at hab
                · have hx : x = y := by
                    rcases lt_trichotomy x y with h | h | h
                    · exact absurd h hxy
                    · exact h
                    · exact absurd h hyx
                  subst hx
                  simp only [chListLe, lt_irrefl, if_false] at hab
                  by_cases hyz : x < z
                  · simp [chListLe, hyz]
                  · by_cases hzy : z < x
                    · simp [chListLe, hyz, hzy] at hbc
                    · have : x = z := by
                        rcases lt_trichotomy x z with h | h | h
                        · exact absurd h hyz
                        · exact h
                        · exact absurd h hzy
                      subst this
                      simp only [chListLe, lt_irrefl, if_false] at hbc ⊢
                      exact ih ys zs hab hbc

theorem string_eq_of_data_eq (a b : String) (h : a.data = b.data) : a = b := by
  cases a; cases b; exact congrArg String.mk h

theorem pathLe_total (p : List String) : ∀ q, pathLe p q = true ∨ pathLe q p = true := by
  induction p with
  | nil => intro q; left; rfl
  | cons a as ih =>
      intro q
      cases q with
      | nil => right; rfl
      | cons b bs =>
          by_cases hab : a = b
          · subst hab
            rcases ih bs with h | h
            · left; simpa [pathLe] using h
            · right; simpa [pathLe] using h
          · have hba : ¬ b = a := fun h => hab h.symm
            rcases chListLe_total a.data b.data with h | h
            · left; simp [pathLe, hab, h]
            · right; simp [pathLe, hba, h]

theorem pathLe_trans (p : List String) :
    ∀ q r, pathLe p q = true → pathLe q r = true → pathLe p r = true := by
  induction p with
  | nil => intro q r hpq hqr; rfl
  | cons a as ih =>
      intro q r hpq hqr
      cases q with
      | nil => simp [pathLe] at hpq
      | cons b bs =>
          cases r with
          | nil => simp [pathLe] at hqr
          | cons c cs =>
              by_cases hab : a = b
              · subst hab
                by_cases hbc : a = c
                · subst hbc
                  simp only [pathLe, if_pos rfl] at hpq hqr ⊢
                  exact ih bs cs hpq hqr
                · simp only [pathLe, if_pos rfl] at hpq
                  simpa [pathLe, hbc] using hqr
              · by_cases hbc : b = c
                · subst hbc
                  simpa [pathLe, hab] using hpq
                · simp only [pathLe, if_neg hab] at hpq
                  simp only [pathLe, if_neg hbc] at hqr
                  by_cases hac : a = c
                  · subst hac
                    have := chListLe_antisymm a.data b.data hpq hqr
                    exact absurd (string_eq_of_data_eq a b this) hab
                  · simp only [pathLe, if_neg hac]
                    exact chListLe_trans a.data b.data c.data hpq hqr

theorem mem_insertPath (x a : List String) :
    ∀ l, a ∈ insertPath x l ↔ a = x ∨ a ∈ l := by
  intro l
  induction l with
  | nil => simp [insertPath]
  | cons y ys ih =>
      by_cases h : pathLe x y = true
      · simp [insertPath, h]
      · simp only [insertPath, if_neg h, List.mem_cons, ih]
        tauto

theorem pairwise_insertPath (x : List String) (l : List (List String))
    (h : l.Pairwise (fun p q => pathLe p q = true)) :
    (insertPath x l).Pairwise (fun p q => pathLe p q = true) := by
  induction l with
  | nil => simp [insertPath]
  | cons y ys ih =>
      rw [List.pairwise_cons] at h
      obtain ⟨hy, hys⟩ := h
      by_cases hxy : pathLe x y = true
      · rw [insertPath, if_pos hxy]
        refine List.Pairwise.cons ?_ (List.Pairwise.cons hy hys)
        intro z hz
        rcases List.mem_cons.mp hz with rfl | hz
        · exact hxy
        · exact pathLe_trans x y z hxy (hy z hz)
      · have hyx : pathLe y x = true := by
          rcases pathLe_total x y with h | h
          · exact absurd h hxy
          · exact h
        rw [insertPath, if_neg hxy]
        refine List.Pairwise.cons ?_ (ih hys)
        intro z hz
        rcases (mem_insertPath x z ys).mp hz with rfl | hz
        · exact hyx
        · exact hy z hz

theorem sortPaths_pairwise (l : List (List String)) :
    (sortPaths l).Pairwise (fun p q => pathLe p q = true) := by
  induction l with
  | nil => simp [sortPaths]
  | cons x xs ih => exact pairwise_insertPath x (sortPaths xs) ih

theorem mem_sortPaths (a : List String) (l : List (List String)) :
    a ∈ sortPaths l ↔ a ∈ l := by
  induction l with
  | nil => simp [sortPaths]
  | cons x xs ih =>
      show a ∈ insertPath x (sortPaths xs) ↔ _
      rw [mem_insertPath, ih]
      simp [eq_comm]

/-! ### C6: find_rosbags returns a lexicographically sorted list -/

/-- C6: the bag paths returned by `find_rosbags` are pairwise ordered by
the total lexicographic path order `pathLe` (component-wise comparison by
code point), hence returned in a deterministic lexicographic order. -/
theorem find_rosbags_sorted_lex (n : FSNode) (root : List String) :
    (find_rosbags n root).Pairwise (fun p q => pathLe p q = true) :=
  sortPaths_pairwise (walkCollect n root)

/-! ### The pruned walk (towards C5 and C7) -/

theorem sizeOf_entry_lt (es : FSEntries) : ∀ e ∈ es.toList, sizeOf e.2 < sizeOf es := by
  induction es using fsEntriesInd with
  | hnil => intro e he; simp [FSEntries.toList] at he
  | hcons s n rest ih =>
      intro e he
      rw [FSEntries.toList] at he
      rcases List.mem_cons.mp he with rfl | he
      · simp; omega
      · have := ih e he
        simp
        omega

theorem mem_walkChildren (es : FSEntries) :
    ∀ (p q : List String), q ∈ walkChildren es p ↔
      ∃ e ∈ es.toList, q ∈ walkCollect e.2 (p ++ [e.1]) := by
  induction es using fsEntriesInd with
  | hnil => intro p q; simp [walkChildren, FSEntries.toList]
  | hcons s n rest ih =>
      intro p q
      simp only [walkChildren, List.mem_append, ih, FSEntries.toList, List.mem_cons]
      constructor
      · rintro (h | ⟨e, he, hq⟩)
        · exact ⟨(s, n), Or.inl rfl, h⟩
        · exact ⟨e, Or.inr he, hq⟩
      · rintro ⟨e, (rfl | he), hq⟩
        · exact Or.inl hq
        · exact Or.inr ⟨e, he, hq⟩

theorem walkCollect_under_aux : ∀ (k : ℕ) (n : FSNode) (p q : List String),
    sizeOf n ≤ k → q ∈ walkCollect n p → p <+: q := by
  intro k
  induction k with
  | zero =>
      intro n p q hk
      cases n <;> simp at hk
  | succ k ih =>
      intro n p q hk hq
      cases n with
      | file => simp [walkCollect] at hq
      | dir es =>
          by_cases hbag : isBagEntries es = true
          · simp [walkCollect, hbag] at hq
            exact hq ▸ List.prefix_refl p
          · simp only [walkCollect, if_neg hbag] at hq
            rw [mem_walkChildren] at hq
            obtain ⟨e, he, hq⟩ := hq
            have hlt : sizeOf e.2 < sizeOf es := sizeOf_entry_lt es e he
            have hsz : sizeOf e.2 ≤ k := by
              have hd : sizeOf (FSNode.dir es) = 1 + sizeOf es := by simp
              omega
            exact (List.prefix_append p [e.1]).trans (ih e.2 (p ++ [e.1]) q hsz hq)

/-- Every path collected by the walk extends the root it started from. -/
theorem walkCollect_under (n : FSNode) (p q : List String)
    (h : q ∈ walkCollect n p) : p <+: q :=
  walkCollect_under_aux (sizeOf n) n p q le_rfl h

theorem prefix_eq_of_length (l1 l2 l : List String) (h1 : l1 <+: l) (h2 : l2 <+: l)
    (h : l1.length = l2.length) : l1 = l2 := by
  obtain ⟨t1, ht1⟩ := h1
  obtain ⟨t2, ht2⟩ := h2
  exact (List.append_inj (ht1.trans ht2.symm) h).1

theorem fswf_nodup (es : FSEntries) (h : FSWF (.dir es) = true) :
    (es.toList.map (fun e => e.1)).Nodup := by
  simp only [FSWF, Bool.and_eq_true, decide_eq_true_eq] at h
  exact h.1

theorem fswfEntries_child (es : FSEntries) :
    FSWFEntries es = true → ∀ e ∈ es.toList, FSWF e.2 = true := by
  induction es using fsEntriesInd with
  | hnil => intro _ e he; simp [FSEntries.toList] at he
  | hcons s n rest ih =>
      intro h e he
      simp only [FSWFEntries, Bool.and_eq_true] at h
      rw [FSEntries.toList] at he
      rcases List.mem_cons.mp he with rfl | he
      · exact h.1
      · exact ih h.2 e he

theorem fswf_child (es : FSEntries) (h : FSWF (.dir es) = true) :
    ∀ e ∈ es.toList, FSWF e.2 = true := by
  simp only [FSWF, Bool.and_eq_true] at h
  exact fswfEntries_child es h.2

theorem walkCollect_nonest_aux : ∀ (k : ℕ) (n : FSNode) (p q1 q2 : List String),
    sizeOf n ≤ k → FSWF n = true →
    q1 ∈ walkCollect n p → q2 ∈ walkCollect n p → q1 <+: q2 → q1 = q2 := by
  intro k
  induction k with
  | zero =>
      intro n p q1 q2 hk
      cases n <;> simp at hk
  | succ k ih =>
      intro n p q1 q2 hk hwf h1 h2 hpre
      cases n with
      | file => simp [walkCollect] at h1
      | dir es =>
          by_cases hbag : isBagEntries es = true
          · simp [walkCollect, hbag] at h1 h2
            rw [h1, h2]
          · simp only [walkCollect, if_neg hbag] at h1 h2
            rw [mem_walkChildren] at h1 h2
            obtain ⟨e1, he1, h1⟩ := h1
            obtain ⟨e2, he2, h2⟩ := h2
            have ha : (p ++ [e1.1]) <+: q1 := walkCollect_under _ _ _ h1
            have hb : (p ++ [e2.1]) <+: q2 := walkCollect_under _ _ _ h2
            have hc : (p ++ [e1.1]) <+: q2 := ha.trans hpre
            have hname : e1.1 = e2.1 := by
              have heq := prefix_eq_of_length (p ++ [e1.1]) (p ++ [e2.1]) q2 hc hb (by simp)
              have hdrop := congrArg (List.drop p.length) heq
              simpa [List.drop_left] using hdrop
            have hentry : e1 = e2 :=
              List.inj_on_of_nodup_map (fswf_nodup es hwf) he1 he2 hname
            cases hentry
            have hwfc : FSWF e1.2 = true := fswf_child es hwf e1 he1
            have hlt : sizeOf e1.2 < sizeOf es := sizeOf_entry_lt es e1 he1
            have hsz : sizeOf e1.2 ≤ k := by
              have hd : sizeOf (FSNode.dir es) = 1 + sizeOf es := by simp
              omega
            exact ih e1.2 (p ++ [e1.1]) q1 q2 hsz hwfc h1 h2 hpre

/-- Among the paths collected by one pruned walk over a well-formed tree,
a path that is a prefix of another collected path is that path. -/
theorem walkCollect_nonest (n : FSNode) (p q1 q2 : List String)
    (hwf : FSWF n = true) (h1 : q1 ∈ walkCollect n p) (h2 : q2 ∈ walkCollect n p)
    (hpre : q1 <+: q2) : q1 = q2 :=
  walkCollect_nonest_aux (sizeOf n) n p q1 q2 le_rfl hwf h1 h2 hpre

/-! ### C5: the pruning invariant of find_rosbags -/

/-- C5: for a well-formed filesystem tree (distinct entry names inside
each directory, as real filesystems guarantee), no path returned by
`find_rosbags` is a strict descendant of another returned path: once a
directory qualifies as a bag its subtree is pruned. -/
theorem find_rosbags_no_nesting (n : FSNode) (root : List String)
    (hwf : FSWF n = true) (p q : List String)
    (hp : p ∈ find_rosbags n root) (hq : q ∈ find_rosbags n root)
    (hne : p ≠ q) : ¬ p <+: q := by
  rw [find_rosbags, mem_sortPaths] at hp hq
  intro hpre
  exact hne (walkCollect_nonest n root p q hwf hp hq hpre)

/-- Witness for C5: in a tree with bags at `a`, `b` and a nested bag at
`b/c`, discovery returns exactly `a` and `b` (the nested bag is pruned
away) and neither result is a prefix of the other. -/
theorem find_rosbags_no_nesting_witness :
    find_rosbags fsNested [] = [["a"], ["b"]] ∧ ¬ ["a"] <+: ["b"] :=
  ⟨by decide,
   find_rosbags_no_nesting fsNested [] (by decide) ["a"] ["b"]
     (by decide) (by decide) (by decide)⟩

/-! ### C7: structured mode mirrors the tree under the bag root -/

/-- C7: when the input directory is not itself a bag but contains an entry
named `ros2bag`, the orchestrator treats that subtree as the bag root:
it creates the sibling `csv` output root (exist_ok) and dumps every bag
found beneath `ros2bag` into `csv` extended with the bag path relative to
`ros2bag`; every such bag path is the root component followed by its
relative remainder, so the relative structure is mirrored. -/
theorem structured_mode_mirrors_tree (es : FSEntries) (rb : FSNode)
    (h1 : is_rosbag_dir (FSNode.dir es) = false)
    (h2 : lookupEntry es "ros2bag" = some rb)
    (h3 : find_rosbags rb ["ros2bag"] ≠ []) :
    mainPlan (FSNode.dir es) =
      { effects := Effect.mkdir ["csv"] ::
          (find_rosbags rb ["ros2bag"]).map
            (fun b => Effect.dump b ("csv" :: get_relative_structure b ["ros2bag"])),
        ok := true } ∧
    ∀ b ∈ find_rosbags rb ["ros2bag"],
      b = "ros2bag" :: get_relative_structure b ["ros2bag"] := by
  constructor
  · have hE : (find_rosbags rb ["ros2bag"]).isEmpty = false := by
      cases hfe : find_rosbags rb ["ros2bag"] with
      | nil => exact absurd hfe h3
      | cons a l => rfl
    simp [mainPlan, h1, h2, process_structured_bags, hE]
  · intro b hb
    rw [find_rosbags, mem_sortPaths] at hb
    obtain ⟨t, ht⟩ := walkCollect_under rb ["ros2bag"] b hb
    rw [← ht]
    simp [get_relative_structure]

/-- Witness for C7: on the structured example tree the orchestrator
creates `csv` and dumps the two bags `ros2bag/cfg1/trial_1` and
`ros2bag/cfg1/trial_2` into the mirrored output paths `csv/cfg1/trial_1`
and `csv/cfg1/trial_2`. -/
theorem structured_mode_mirrors_tree_witness :
    mainPlan fsStructured =
      { effects := [Effect.mkdir ["csv"],
          Effect.dump ["ros2bag", "cfg1", "trial_1"] ["csv", "cfg1", "trial_1"],
          Effect.dump ["ros2bag", "cfg1", "trial_2"] ["csv", "cfg1", "trial_2"]],
        ok := true } := by
  have h := structured_mode_mirrors_tree fsStructuredEntries rbNode
    (by decide) rfl (by decide)
  exact h.1.trans (by decide)

/-! ### Start-time latching (towards C1, C3, C8, C9, C10) -/

theorem stepMsg_start_some (s : DumpState) (r : Record) (t : ℚ)
    (h : s.startTime = some t) :
    (resultState (stepMsg s r)).startTime = some t := by
  by_cases hskip : isSkip r.topic = true
  · simp [stepMsg, hskip, resultState, h]
  · cases hd : r.data with
    | none => simp [stepMsg, hskip, hd, resultState, h]
    | some m =>
        cases ht : (if hasHeaderAttr m then headerStamp m else some r.timestamp) with
        | none => simp [stepMsg, hskip, hd, ht, resultState, h]
        | some t2 => simp [stepMsg, hskip, hd, ht, resultState, h]

theorem runMsgs_start_some : ∀ (records : List Record) (s : DumpState) (t : ℚ),
    s.startTime = some t → (resultState (runMsgs s records)).startTime = some t := by
  intro records
  induction records with
  | nil => intro s t h; simpa [runMsgs, resultState] using h
  | cons r rest ih =>
      intro s t h
      rw [runMsgs]
      have hstep := stepMsg_start_some s r t h
      cases hs : stepMsg s r with
      | ok s1 =>
          rw [hs] at hstep
          exact ih s1 t (by simpa [resultState] using hstep)
      | error s1 =>
          rw [hs] at hstep
          simpa [resultState] using hstep

theorem firstResolved_cons_skip (r : Record) (rest : List Record)
    (h : isSkip r.topic = true) :
    firstResolved (r :: rest) = firstResolved rest := by
  unfold firstResolved
  rw [List.find?_cons_of_neg _ (by simp [h])]

theorem firstResolved_cons_proc (r : Record) (rest : List Record)
    (h : isSkip r.topic = false) :
    firstResolved (r :: rest) = resolveTime r := by
  unfold firstResolved
  rw [List.find?_cons_of_pos _ (by simp [h])]
  rfl

theorem runMsgs_start_none : ∀ (records : List Record) (s : DumpState),
    s.startTime = none →
    (resultState (runMsgs s records)).startTime = firstResolved records := by
  intro records
  induction records with
  | nil => intro s h; simpa [runMsgs, resultState, firstResolved] using h
  | cons r rest ih =>
      intro s h
      by_cases hskip : isSkip r.topic = true
      · rw [runMsgs]
        have hs : stepMsg s r = .ok s := by simp [stepMsg, hskip]
        rw [hs, firstResolved_cons_skip r rest hskip]
        exact ih s h
      · have hskip2 : isSkip r.topic = false := by simpa using hskip
        rw [runMsgs, firstResolved_cons_proc r rest hskip2]
        cases hd : r.data with
        | none =>
            have hs : stepMsg s r = .error s := by simp [stepMsg, hskip2, hd]
            rw [hs]
            simp [resultState, h, resolveTime, hd]
        | some m =>
            cases ht : (if hasHeaderAttr m then headerStamp m else some r.timestamp) with
            | none =>
                have hs : stepMsg s r =
                    .error { s with files := ensureFile s.files r.topic m } := by
                  simp [stepMsg, hskip2, hd, ht]
                rw [hs]
                simp [resultState, h, resolveTime, hd, ht]
            | some t =>
                have hs : stepMsg s r = .ok
                    { files := appendRow (ensureFile s.files r.topic m) r.topic
                        (t - s.startTime.getD t, flatVals m),
                      startTime := some (s.startTime.getD t),
                      msgCount := s.msgCount + 1 } := by
                  simp [stepMsg, hskip2, hd, ht]
                rw [hs]
                have hres : resolveTime r = some t := by simp [resolveTime, hd, ht]
                rw [hres]
                exact runMsgs_start_some rest _ t (by simp [h])

/-! ### Preservation of the dump invariant -/

theorem headerWitness_mono {rs rs2 : List Record} {T : String} {hdr : List String}
    (hsub : ∀ x ∈ rs, x ∈ rs2) (h : HeaderWitness rs T hdr) : HeaderWitness rs2 T hdr := by
  obtain ⟨r, hr, ht, m, hm, hh⟩ := h
  exact ⟨r, hsub r hr, ht, m, hm, hh⟩

theorem rowWitness_mono {rs rs2 : List Record} {t0 : ℚ} {T : String} {row : ℚ × List String}
    (hsub : ∀ x ∈ rs, x ∈ rs2) (h : RowWitness rs t0 T row) : RowWitness rs2 t0 T row := by
  obtain ⟨r, hr, ht, m, hm, hres, hv⟩ := h
  exact ⟨r, hsub r hr, ht, m, hm, hres, hv⟩

theorem filesOK_mono {rs rs2 : List Record} {st : Option ℚ} {files : List OutFile}
    (hsub : ∀ x ∈ rs, x ∈ rs2) (h : FilesOK rs st files) : FilesOK rs2 st files := by
  intro f hf
  obtain ⟨h1, h2, h3⟩ := h f hf
  refine ⟨h1, headerWitness_mono hsub h2, fun row hrow => ?_⟩
  obtain ⟨t0, hst, hw⟩ := h3 row hrow
  exact ⟨t0, hst, rowWitness_mono hsub hw⟩

theorem mem_ensureFile {files : List OutFile} {topic : String} {m : RosValue} {f : OutFile}
    (h : f ∈ ensureFile files topic m) : f ∈ files ∨ f = newOutFile topic m := by
  unfold ensureFile at h
  by_cases hc : hasFileFor files topic = true
  · rw [if_pos hc] at h
    exact Or.inl h
  · rw [if_neg hc] at h
    rcases List.mem_append.mp h with h | h
    · exact Or.inl h
    · exact Or.inr (List.mem_singleton.mp h)

theorem mem_appendRow {files : List OutFile} {topic : String} {row : ℚ × List String}
    {f : OutFile} (h : f ∈ appendRow files topic row) :
    ∃ g ∈ files, f.topic = g.topic ∧ f.header = g.header ∧ f.closed = g.closed ∧
      (f.rows = g.rows ∨ (g.topic = topic ∧ f.rows = g.rows ++ [row])) := by
  unfold appendRow at h
  rcases List.mem_map.mp h with ⟨g, hg, heq⟩
  by_cases hc : (g.topic == topic) = true
  · rw [if_pos hc] at heq
    subst heq
    exact ⟨g, hg, rfl, rfl, rfl, Or.inr ⟨eq_of_beq hc, rfl⟩⟩
  · rw [if_neg hc] at heq
    subst heq
    exact ⟨g, hg, rfl, rfl, rfl, Or.inl rfl⟩

theorem stepMsg_filesOK (s : DumpState) (r : Record) (rs : List Record)
    (h : FilesOK rs s.startTime s.files) :
    FilesOK (rs ++ [r]) (resultState (stepMsg s r)).startTime
      (resultState (stepMsg s r)).files := by
  have hsub : ∀ x ∈ rs, x ∈ rs ++ [r] := fun x hx => List.mem_append_left _ hx
  by_cases hskip : isSkip r.topic = true
  · have hs : stepMsg s r = .ok s := by simp [stepMsg, hskip]
    rw [hs]
    exact filesOK_mono hsub h
  · have hskip2 : isSkip r.topic = false := by simpa using hskip
    cases hd : r.data with
    | none =>
        have hs : stepMsg s r = .error s := by simp [stepMsg, hskip2, hd]
        rw [hs]
        exact filesOK_mono hsub h
    | some m =>
        have hens : FilesOK (rs ++ [r]) s.startTime (ensureFile s.files r.topic m) := by
          intro f hf
          rcases mem_ensureFile hf with hf | rfl
          · exact filesOK_mono hsub h f hf
          · refine ⟨hskip2, ⟨r, List.mem_append_right _ (by simp), rfl, m, hd, rfl⟩, ?_⟩
            intro row hrow
            simp [newOutFile] at hrow
        cases ht : (if hasHeaderAttr m then headerStamp m else some r.timestamp) with
        | none =>
            have hs : stepMsg s r =
                .error { s with files := ensureFile s.files r.topic m } := by
              simp [stepMsg, hskip2, hd, ht]
            rw [hs]
            simpa [resultState] using hens
        | some t =>
            have hres : resolveTime r = some t := by simp [resolveTime, hd, ht]
            have hs : stepMsg s r = .ok
                { files := appendRow (ensureFile s.files r.topic m) r.topic
                    (t - s.startTime.getD t, flatVals m),
                  startTime := some (s.startTime.getD t),
                  msgCount := s.msgCount + 1 } := by
              simp [stepMsg, hskip2, hd, ht]
            rw [hs]
            intro f hf
            simp only [resultState] at hf ⊢
            obtain ⟨g, hg, htop, hhd, hcl, hrows⟩ := mem_appendRow hf
            obtain ⟨hg1, hg2, hg3⟩ := hens g hg
            refine ⟨htop ▸ hg1, by rw [htop, hhd]; exact hg2, ?_⟩
            intro row hrow
            rcases hrows with hr0 | ⟨hgt, hr1⟩
            · rw [hr0] at hrow
              obtain ⟨t0, hst0, hw⟩ := hg3 row hrow
              have hstt0 : s.startTime.getD t = t0 := by rw [hst0]; rfl
              exact ⟨s.startTime.getD t, rfl, by rw [htop, hstt0]; exact hw⟩
            · rw [hr1] at hrow
              rcases List.mem_append.mp hrow with hrow | hrow
              · obtain ⟨t0, hst0, hw⟩ := hg3 row hrow
                have hstt0 : s.startTime.getD t = t0 := by rw [hst0]; rfl
                exact ⟨s.startTime.getD t, rfl, by rw [htop, hstt0]; exact hw⟩
              · have hrownew := List.mem_singleton.mp hrow
                subst hrownew
                refine ⟨s.startTime.getD t, rfl, r,
                  List.mem_append_right _ (by simp), (htop.trans hgt).symm, m, hd, ?_, rfl⟩
                rw [sub_add_cancel]
                exact hres

theorem runMsgs_filesOK : ∀ (records : List Record) (s : DumpState) (rs : List Record),
    FilesOK rs s.startTime s.files →
    FilesOK (rs ++ records) (resultState (runMsgs s records)).startTime
      (resultState (runMsgs s records)).files := by
  intro records
  induction records with
  | nil => intro s rs h; simpa [runMsgs, resultState] using h
  | cons r rest ih =>
      intro s rs h
      rw [runMsgs]
      have hstep := stepMsg_filesOK s r rs h
      have hApp : rs ++ r :: rest = (rs ++ [r]) ++ rest := by simp
      cases hs : stepMsg s r with
      | ok s1 =>
          rw [hs] at hstep
          rw [hApp]
          exact ih s1 (rs ++ [r]) (by simpa [resultState] using hstep)
      | error s1 =>
          rw [hs] at hstep
          simp only [resultState] at hstep ⊢
          refine filesOK_mono ?_ hstep
          intro x hx
          rcases List.mem_append.mp hx with hx | hx
          · exact List.mem_append_left _ hx
          · rw [List.mem_singleton.mp hx]
            exact List.mem_append_right _ (by simp)

/-- The dump invariant holds of the state any pass ends in. -/
theorem finalState_filesOK (records : List Record) :
    FilesOK records (finalState records).startTime (finalState records).files := by
  have h0 : FilesOK ([] : List Record) initState.startTime initState.files := by
    intro f hf
    simp [initState] at hf
  have h := runMsgs_filesOK records initState [] h0
  simpa [finalState] using h

/-- The files `dump_bag` reports are the files of the final loop state
(with the closed flag set on normal completion). -/
theorem dump_bag_files (records : List Record) :
    ∀ f ∈ (dump_bag records).files, ∃ g ∈ (finalState records).files,
      f.topic = g.topic ∧ f.header = g.header ∧ f.rows = g.rows := by
  intro f hf
  unfold dump_bag at hf
  unfold finalState resultState
  cases hr : runMsgs initState records with
  | ok s =>
      rw [hr] at hf
      simp only at hf
      rcases List.mem_map.mp hf with ⟨g, hg, heq⟩
      subst heq
      exact ⟨g, hg, rfl, rfl, rfl⟩
  | error s =>
      rw [hr] at hf
      exact ⟨f, hf, rfl, rfl, rfl⟩

/-! ### C8: skip-set topics produce no output -/

/-- C8: in any dump pass, no output file (and hence no row) ever belongs
to a topic of the fixed skip set, whatever messages the bag carries, and
the returned topic count counts exactly the files of non-skipped topics. -/
theorem skip_topics_produce_no_output (records : List Record) :
    (∀ f ∈ (dump_bag records).files, isSkip f.topic = false) ∧
    (∀ n, (dump_bag records).result = some n → n = (dump_bag records).files.length) := by
  constructor
  · intro f hf
    obtain ⟨g, hg, ht, _, _⟩ := dump_bag_files records f hf
    rw [ht]
    exact ((finalState_filesOK records) g hg).1
  · intro n hn
    unfold dump_bag at hn ⊢
    cases hr : runMsgs initState records with
    | ok s => simp_all
    | error s => simp_all

/-- Witness for C8: a pass containing messages on `/rosout` and
`/parameter_events` produces a single file, for `/a` only. -/
theorem skip_topics_produce_no_output_witness :
    isSkip "/rosout" = true ∧ isSkip "/parameter_events" = true ∧
    (dump_bag recsSkip).result = some 1 ∧
    (∀ f ∈ (dump_bag recsSkip).files, isSkip f.topic = false) :=
  ⟨by decide, by decide, rfl, (skip_topics_produce_no_output recsSkip).1⟩

/-! ### C1: files are closed on normal completion, left open on abort -/

/-- C1 counterexample: in the two-message pass `recsAbort` the second
message fails to decode, the pass aborts, and the file opened for `/a`
is left open — refuting the claim that every opened file is closed even
when the pass is aborted by an error. -/
theorem dump_abort_leaves_file_open :
    (dump_bag recsAbort).result = none ∧
    ∃ f ∈ (dump_bag recsAbort).files, f.closed = false := by
  refine ⟨rfl, ?_⟩
  exact ⟨_, List.mem_cons_self _ _, rfl⟩

/-- C1 (amended): every output file opened during a dump pass is closed
when the pass completes normally; a pass aborted by an error leaves the
files opened so far unclosed (there is no try/finally around the message
loop). -/
theorem dump_ok_closes_all_files (records : List Record) (n : ℕ)
    (h : (dump_bag records).result = some n) :
    ∀ f ∈ (dump_bag records).files, f.closed = true := by
  unfold dump_bag at h ⊢
  cases hr : runMsgs initState records with
  | ok s =>
      intro f hf
      rcases List.mem_map.mp (by simpa using hf) with ⟨g, hg, heq⟩
      subst heq
      rfl
  | error s => simp_all

/-- Witness for C1: the one-message pass `recsOk` completes with one
topic and its file closed. -/
theorem dump_ok_closes_all_files_witness :
    (dump_bag recsOk).result = some 1 ∧
    ∀ f ∈ (dump_bag recsOk).files, f.closed = true :=
  ⟨rfl, dump_ok_closes_all_files recsOk 1 rfl⟩

/-! ### Loop decomposition lemmas (towards C3) -/

theorem runMsgs_cons_ok (s : DumpState) (r : Record) (rest : List Record) (s2 : DumpState)
    (h : stepMsg s r = .ok s2) : runMsgs s (r :: rest) = runMsgs s2 rest := by
  rw [runMsgs, h]

theorem runMsgs_cons_err (s : DumpState) (r : Record) (rest : List Record) (s2 : DumpState)
    (h : stepMsg s r = .error s2) : runMsgs s (r :: rest) = .error s2 := by
  rw [runMsgs, h]

theorem runMsgs_append_ok : ∀ (l1 : List Record) (s s1 : DumpState) (l2 : List Record),
    runMsgs s l1 = .ok s1 → runMsgs s (l1 ++ l2) = runMsgs s1 l2 := by
  intro l1
  induction l1 with
  | nil =>
      intro s s1 l2 h
      injection h with h
      subst h
      rfl
  | cons r rest ih =>
      intro s s1 l2 h
      cases hs : stepMsg s r with
      | ok s2 =>
          rw [runMsgs_cons_ok s r rest s2 hs] at h
          rw [List.cons_append, runMsgs_cons_ok s r (rest ++ l2) s2 hs]
          exact ih s2 s1 l2 h
      | error s2 =>
          rw [runMsgs_cons_err s r rest s2 hs] at h
          simp at h

theorem runMsgs_skip_all : ∀ (l : List Record) (s : DumpState),
    (∀ x ∈ l, isSkip x.topic = true) → runMsgs s l = .ok s := by
  intro l
  induction l with
  | nil => intro s _; rfl
  | cons r rest ih =>
      intro s h
      have hr : isSkip r.topic = true := h r (by simp)
      have hs : stepMsg s r = .ok s := by simp [stepMsg, hr]
      rw [runMsgs_cons_ok s r rest s hs]
      exact ih s (fun x hx => h x (by simp [hx]))

theorem find?_decomp {α : Type} (p : α → Bool) :
    ∀ (l : List α) (a : α), l.find? p = some a →
      ∃ l1 l2, l = l1 ++ a :: l2 ∧ ∀ x ∈ l1, p x = false := by
  intro l
  induction l with
  | nil => intro a h; simp [List.find?] at h
  | cons x xs ih =>
      intro a h
      by_cases hp : p x = true
      · rw [List.find?_cons_of_pos _ hp] at h
        injection h with h
        subst h
        exact ⟨[], xs, rfl, by simp⟩
      · have hp2 : p x = false := by simpa using hp
        rw [List.find?_cons_of_neg _ hp] at h
        obtain ⟨l1, l2, heq, hall⟩ := ih a h
        refine ⟨x :: l1, l2, by rw [heq, List.cons_append], ?_⟩
        intro y hy
        rcases List.mem_cons.mp hy with rfl | hy
        · exact hp2
        · exact hall y hy

/-! ### Files and rows only grow during the loop -/

theorem stepMsg_mono (s : DumpState) (r : Record) (f : OutFile) (hf : f ∈ s.files) :
    ∃ f2 ∈ (resultState (stepMsg s r)).files,
      f2.topic = f.topic ∧ f2.header = f.header ∧ f.rows <+: f2.rows := by
  by_cases hskip : isSkip r.topic = true
  · have hs : stepMsg s r = .ok s := by simp [stepMsg, hskip]
    rw [hs]
    exact ⟨f, hf, rfl, rfl, List.prefix_refl _⟩
  · have hskip2 : isSkip r.topic = false := by simpa using hskip
    cases hd : r.data with
    | none =>
        have hs : stepMsg s r = .error s := by simp [stepMsg, hskip2, hd]
        rw [hs]
        exact ⟨f, hf, rfl, rfl, List.prefix_refl _⟩
    | some m =>
        have hmem1 : f ∈ ensureFile s.files r.topic m := by
          unfold ensureFile
          by_cases hc : hasFileFor s.files r.topic = true
          · rw [if_pos hc]; exact hf
          · rw [if_neg hc]; exact List.mem_append_left _ hf
        cases ht : (if hasHeaderAttr m then headerStamp m else some r.timestamp) with
        | none =>
            have hs : stepMsg s r =
                .error { s with files := ensureFile s.files r.topic m } := by
              simp [stepMsg, hskip2, hd, ht]
            rw [hs]
            exact ⟨f, hmem1, rfl, rfl, List.prefix_refl _⟩
        | some t =>
            have hs : stepMsg s r = .ok
                { files := appendRow (ensureFile s.files r.topic m) r.topic
                    (t - s.startTime.getD t, flatVals m),
                  startTime := some (s.startTime.getD t),
                  msgCount := s.msgCount + 1 } := by
              simp [stepMsg, hskip2, hd, ht]
            rw [hs]
            simp only [resultState]
            by_cases hc : (f.topic == r.topic) = true
            · refine ⟨{ f with rows := f.rows ++ [(t - s.startTime.getD t, flatVals m)] },
                ?_, rfl, rfl, List.prefix_append _ _⟩
              unfold appendRow
              exact List.mem_map.mpr ⟨f, hmem1, by rw [if_pos hc]⟩
            · refine ⟨f, ?_, rfl, rfl, List.prefix_refl _⟩
              unfold appendRow
              exact List.mem_map.mpr ⟨f, hmem1, by rw [if_neg hc]⟩

theorem runMsgs_mono : ∀ (records : List Record) (s : DumpState) (f : OutFile),
    f ∈ s.files →
    ∃ f2 ∈ (resultState (runMsgs s records)).files,
      f2.topic = f.topic ∧ f2.header = f.header ∧ f.rows <+: f2.rows := by
  intro records
  induction records with
  | nil => intro s f hf; exact ⟨f, hf, rfl, rfl, List.prefix_refl _⟩
  | cons r rest ih =>
      intro s f hf
      have hstep := stepMsg_mono s r f hf
      cases hs : stepMsg s r with
      | ok s1 =>
          rw [hs] at hstep
          simp only [resultState] at hstep
          obtain ⟨f1, hf1, ht1, hh1, hr1⟩ := hstep
          obtain ⟨f2, hf2, ht2, hh2, hr2⟩ := ih s1 f1 hf1
          rw [runMsgs_cons_ok s r rest s1 hs]
          exact ⟨f2, hf2, ht2.trans ht1, hh2.trans hh1, hr1.trans hr2⟩
      | error s1 =>
          rw [hs] at hstep
          rw [runMsgs_cons_err s r rest s1 hs]
          exact hstep

/-! ### C3: the shared zero point of the relative timeline -/

/-- C3: the pass-wide start_time is the resolved timestamp of the first
message processed in the whole pass (the first record outside the skip
set, shared across all topics); every row written anywhere in the pass
has its leading column equal to its own resolved timestamp minus that
start_time; and the first-processed message yields the first row of its
topic with leading column exactly 0. -/
theorem dump_relative_timeline (records : List Record) (r0 : Record) (m0 : RosValue)
    (t0 : ℚ)
    (h1 : records.find? (fun r => !isSkip r.topic) = some r0)
    (h2 : r0.data = some m0)
    (h3 : resolveTime r0 = some t0) :
    (finalState records).startTime = some t0 ∧
    (∀ f ∈ (finalState records).files, ∀ row ∈ f.rows,
       ∃ r ∈ records, r.topic = f.topic ∧ resolveTime r = some (row.1 + t0)) ∧
    (∃ f ∈ (finalState records).files, f.topic = r0.topic ∧
       f.rows.head? = some (0, flatVals m0)) := by
  have hstart : (finalState records).startTime = some t0 := by
    have h := runMsgs_start_none records initState rfl
    unfold finalState
    rw [h]
    unfold firstResolved
    rw [h1]
    simpa using h3
  refine ⟨hstart, ?_, ?_⟩
  · intro f hf row hrow
    obtain ⟨_, _, h3f⟩ := finalState_filesOK records f hf
    obtain ⟨t0x, hstx, hw⟩ := h3f row hrow
    have ht0 : t0 = t0x := by
      rw [hstart] at hstx
      injection hstx
    subst ht0
    obtain ⟨r, hr, htop, m, hm, hres, hv⟩ := hw
    exact ⟨r, hr, htop, hres⟩
  · obtain ⟨l1, l2, heq, hall⟩ := find?_decomp _ records r0 h1
    have hp := List.find?_some h1
    have hskip0 : isSkip r0.topic = false := by simpa using hp
    have hallskip : ∀ x ∈ l1, isSkip x.topic = true := by
      intro x hx
      have := hall x hx
      simpa using this
    subst heq
    have hrun1 : runMsgs initState l1 = .ok initState :=
      runMsgs_skip_all l1 initState hallskip
    have hscrut : (if hasHeaderAttr m0 then headerStamp m0 else some r0.timestamp)
        = some t0 := by
      simpa [resolveTime, h2] using h3
    have hstep : stepMsg initState r0 = .ok
        { files := [{ topic := r0.topic, fname := csvFileName r0.topic,
                      header := flatPaths m0, rows := [(0, flatVals m0)],
                      closed := false }],
          startTime := some t0, msgCount := 1 } := by
      simp [stepMsg, hskip0, h2, hscrut, initState, ensureFile, hasFileFor,
        newOutFile, appendRow, sub_self]
    have hfin : finalState (l1 ++ r0 :: l2) = resultState (runMsgs
        { files := [{ topic := r0.topic, fname := csvFileName r0.topic,
                      header := flatPaths m0, rows := [(0, flatVals m0)],
                      closed := false }],
          startTime := some t0, msgCount := 1 } l2) := by
      unfold finalState
      rw [runMsgs_append_ok l1 initState initState (r0 :: l2) hrun1,
        runMsgs_cons_ok _ _ _ _ hstep]
    obtain ⟨f2, hf2, ht2, hh2, hr2⟩ := runMsgs_mono l2
      { files := [{ topic := r0.topic, fname := csvFileName r0.topic,
                    header := flatPaths m0, rows := [(0, flatVals m0)],
                    closed := false }],
        startTime := some t0, msgCount := 1 }
      { topic := r0.topic, fname := csvFileName r0.topic,
        header := flatPaths m0, rows := [(0, flatVals m0)], closed := false }
      (by simp)
    obtain ⟨tl, htl⟩ := hr2
    refine ⟨f2, by rw [hfin]; exact hf2, ht2, ?_⟩
    rw [← htl]
    rfl

/-- Witness for C3: in the pass `recsTimeline` the skipped `/rosout`
message does not define the zero point; start_time is 5 (from the first
`/a` message), every row time is its resolved timestamp minus 5, and the
first `/a` row has leading column 0. -/
theorem dump_relative_timeline_witness :
    (finalState recsTimeline).startTime = some 5 ∧
    (∀ f ∈ (finalState recsTimeline).files, ∀ row ∈ f.rows,
       ∃ r ∈ recsTimeline, r.topic = f.topic ∧ resolveTime r = some (row.1 + 5)) ∧
    (∃ f ∈ (finalState recsTimeline).files, f.topic = "/a" ∧
       f.rows.head? = some (0, flatVals msgX)) :=
  dump_relative_timeline recsTimeline
    { topic := "/a", data := some msgX, timestamp := 5 } msgX 5 rfl rfl rfl

/-! ### Column counting (towards C9) -/

theorem flatVals_length (m : RosValue) : (flatVals m).length = (flatPaths m).length := by
  simp [flatVals, flatPaths]

theorem commaCount_append (a b : String) :
    commaCount (a ++ b) = commaCount a + commaCount b := by
  simp [commaCount, String.data_append, List.count_append]

theorem joinComma_count : ∀ (l : List String), l ≠ [] →
    (∀ x ∈ l, commaCount x = 0) → commaCount (joinComma l) = l.length - 1 := by
  intro l
  induction l with
  | nil => intro h; exact absurd rfl h
  | cons x xs ih =>
      intro _ hall
      cases xs with
      | nil => simpa [joinComma] using hall x (by simp)
      | cons y ys =>
          have hx : commaCount x = 0 := hall x (by simp)
          have htail : commaCount (joinComma (y :: ys)) = (y :: ys).length - 1 :=
            ih (by simp) (fun z hz => hall z (by simp [hz]))
          have hstep : joinComma (x :: y :: ys) = x ++ "," ++ joinComma (y :: ys) := rfl
          rw [hstep, commaCount_append, commaCount_append, hx, htail]
          have hcomma : commaCount "," = 1 := by decide
          rw [hcomma]
          simp only [List.length_cons]
          omega

theorem numCols_headerLine (fields : List String) (hne : fields ≠ [])
    (hclean : ∀ x ∈ fields, commaCount x = 0) :
    numCols (headerLine fields) = fields.length + 1 := by
  unfold numCols headerLine
  rw [commaCount_append, joinComma_count fields hne hclean]
  have h1 : commaCount "time," = 1 := by decide
  rw [h1]
  have h2 : 0 < fields.length := List.length_pos.mpr hne
  omega

theorem numCols_rowLine (t : ℚ) (vals : List String)
    (ht : commaCount (ratStr t) = 0) (hclean : ∀ x ∈ vals, commaCount x = 0) :
    numCols (rowLine t vals) = vals.length + 1 := by
  unfold numCols rowLine
  rw [joinComma_count (ratStr t :: vals) (by simp) ?_]
  · simp
  · intro x hx
    rcases List.mem_cons.mp hx with rfl | hx
    · exact ht
    · exact hclean x hx

/-! ### C9: column-count invariant (corrected) -/

/-- C9 counterexample: for a topic whose first message flattens to no
non-header fields, the header line is the literal `time,` — two CSV
columns — while every data row has a single column, so the column counts
of header and rows differ even though the pass is perfectly
field-set-stable. -/
theorem empty_fields_column_mismatch :
    ∃ f ∈ (dump_bag recsNoFields).files, ∃ row ∈ f.rows,
      numCols (rowLine row.1 row.2) ≠ numCols (headerLine f.header) := by
  have hfiles : (dump_bag recsNoFields).files =
      [{ topic := "/t", fname := csvFileName "/t", header := [],
         rows := [(0, [])], closed := true }] := by
    simp [dump_bag, recsNoFields, runMsgs, stepMsg, msgEmpty, ensureFile, hasFileFor,
      newOutFile, appendRow, resolveTime, hasHeaderAttr, hasField, flatPaths, flatVals,
      flatPairs, genMsgValues, genFields, initState, isSkip, sub_self]
  rw [hfiles]
  refine ⟨{ topic := "/t", fname := csvFileName "/t", header := [],
            rows := [(0, [])], closed := true },
          List.mem_cons_self _ _, (0, []), by simp, ?_⟩
  have h1 : numCols (rowLine 0 []) = 1 := by
    have hc : commaCount (ratStr 0) = 0 := by decide
    simpa using numCols_rowLine 0 [] hc (by simp)
  have h2 : numCols (headerLine []) = 2 := by decide
  show numCols (rowLine 0 []) ≠ numCols (headerLine [])
  omega

/-- C9 (amended): within one dump pass, for a topic whose messages all
flatten to the same field-path list as the first message, every data row
has exactly as many CSV columns as the header row, PROVIDED the topic has
at least one non-header field and no rendered cell (field path, time
string or value) contains a comma; when the filtered field list is empty
the header line carries a trailing empty column (2 columns) while the
rows have 1, and an embedded comma likewise shifts the count. -/
theorem row_columns_match_header (records : List Record) (f : OutFile)
    (hf : f ∈ (finalState records).files)
    (hstable : records.all (fun r => !(r.topic == f.topic) ||
        (match r.data with
         | none => true
         | some m => flatPaths m == f.header)) = true)
    (hne : f.header ≠ [])
    (hcleanH : ∀ x ∈ f.header, commaCount x = 0)
    (hcleanR : ∀ row ∈ f.rows, commaCount (ratStr row.1) = 0 ∧
        ∀ v ∈ row.2, commaCount v = 0) :
    ∀ row ∈ f.rows, numCols (rowLine row.1 row.2) = numCols (headerLine f.header) := by
  intro row hrow
  obtain ⟨_, _, h3f⟩ := finalState_filesOK records f hf
  obtain ⟨t0, hst, r, hr, htop, m, hm, hres, hv⟩ := h3f row hrow
  have hall := List.all_eq_true.mp hstable r hr
  have hb : (r.topic == f.topic) = true := beq_iff_eq.mpr htop
  have hbeq : (flatPaths m == f.header) = true := by
    simpa [hb, hm] using hall
  have hpaths : flatPaths m = f.header := eq_of_beq hbeq
  obtain ⟨hct, hcv⟩ := hcleanR row hrow
  rw [numCols_rowLine row.1 row.2 hct hcv, numCols_headerLine f.header hne hcleanH]
  rw [hv, flatVals_length, hpaths]

/-- Witness for C9: in the field-set-stable pass `recsStable` over topic
`/t`, its file has header `x` and two rows, and each row line has exactly
as many columns as the header line. -/
theorem row_columns_match_header_witness :
    ∃ f ∈ (finalState recsStable).files,
      f.header = ["x"] ∧ f.rows.length = 2 ∧
      ∀ row ∈ f.rows, numCols (rowLine row.1 row.2) = numCols (headerLine f.header) := by
  have hfiles : (finalState recsStable).files =
      [{ topic := "/t", fname := csvFileName "/t", header := ["x"],
         rows := [(0, ["7"]), (1, ["7"])], closed := false }] := by
    simp [finalState, resultState, recsStable, runMsgs, stepMsg, msgX, ensureFile,
      hasFileFor, newOutFile, appendRow, resolveTime, hasHeaderAttr, hasField,
      flatPaths, flatVals, flatPairs, genMsgValues, genFields, notHeaderField,
      strStartsWith, fieldPath, primStr, initState, isSkip]
    norm_num
    decide
  refine ⟨{ topic := "/t", fname := csvFileName "/t", header := ["x"],
            rows := [(0, ["7"]), (1, ["7"])], closed := false },
          by rw [hfiles]; exact List.mem_cons_self _ _, rfl, rfl, ?_⟩
  apply row_columns_match_header recsStable _
    (by rw [hfiles]; exact List.mem_cons_self _ _)
  · decide
  · decide
  · decide
  · intro row hrow
    have hcases : row = ((0 : ℚ), ["7"]) ∨ row = ((1 : ℚ), ["7"]) := by
      simpa using hrow
    rcases hcases with rfl | rfl
    · exact ⟨by decide, by decide⟩
    · exact ⟨by decide, by decide⟩

/-! ### C10: selection of the timestamp source -/

/-- C10: the timestamp source of a processed message depends solely on
whether the decoded message has a `header` attribute: with the attribute
present the header branch `sec + 1e-9 * nanosec` is taken (and a
malformed stamp aborts the pass rather than falling back), without it the
bag-recorded timestamp is used verbatim, so one pass mixes both sources
against the single latched start_time, as the `recsMix` pass shows. -/
theorem time_source_selection :
    (∀ (r : Record) (m : RosValue), r.data = some m → hasHeaderAttr m = true →
        resolveTime r = headerStamp m) ∧
    (∀ (r : Record) (m : RosValue), r.data = some m → hasHeaderAttr m = false →
        resolveTime r = some r.timestamp) ∧
    (∀ (s : DumpState) (r : Record) (m : RosValue), isSkip r.topic = false →
        r.data = some m →
        stepMsg s r = (match resolveTime r with
          | none => .error { s with files := ensureFile s.files r.topic m }
          | some t => .ok { files := appendRow (ensureFile s.files r.topic m) r.topic
                              (t - s.startTime.getD t, flatVals m),
                            startTime := some (s.startTime.getD t),
                            msgCount := s.msgCount + 1 })) ∧
    ((finalState recsMix).startTime = some (10 + (1 : ℚ)/1000000000 * 1) ∧
      ∃ f ∈ (finalState recsMix).files, f.topic = "/n" ∧
        f.rows = [(2 - (10 + (1 : ℚ)/1000000000 * 1), flatVals msgX)]) ∧
    (dump_bag recsBadHeader).result = none := by
  refine ⟨?_, ?_, ?_, ⟨?_, ?_⟩, ?_⟩
  · intro r m hd hh
    simp [resolveTime, hd, hh]
  · intro r m hd hh
    simp [resolveTime, hd, hh]
  · intro s r m hskip hd
    have hres : resolveTime r = (if hasHeaderAttr m then headerStamp m
        else some r.timestamp) := by
      simp [resolveTime, hd]
    rw [hres]
    unfold stepMsg
    simp only [hskip, Bool.false_eq_true, if_false, hd]
  · have h := runMsgs_start_none recsMix initState rfl
    unfold finalState
    rw [h]
    simp [firstResolved, recsMix, resolveTime, hasHeaderAttr, hasField, headerStamp,
      getAttr, getFieldVal, asNum, msgWithHeader, isSkip, List.find?]
  · have hfiles : (finalState recsMix).files =
        [{ topic := "/h", fname := csvFileName "/h",
           header := flatPaths msgWithHeader,
           rows := [(0, flatVals msgWithHeader)], closed := false },
         { topic := "/n", fname := csvFileName "/n", header := flatPaths msgX,
           rows := [(2 - (10 + (1 : ℚ)/1000000000 * 1), flatVals msgX)],
           closed := false }] := by
      simp [finalState, resultState, recsMix, runMsgs, stepMsg, msgWithHeader, msgX,
        ensureFile, hasFileFor, newOutFile, appendRow, resolveTime, hasHeaderAttr,
        hasField, headerStamp, getAttr, getFieldVal, asNum, initState, isSkip]
    rw [hfiles]
    exact ⟨{ topic := "/n", fname := csvFileName "/n", header := flatPaths msgX,
             rows := [(2 - (10 + (1 : ℚ)/1000000000 * 1), flatVals msgX)],
             closed := false },
           List.mem_cons_of_mem _ (List.mem_cons_self _ _), rfl, rfl⟩
  · rfl

/-- Witness for C10: the header-attribute test alone selects the source;
the headerless record resolves to its bag timestamp verbatim, the
header-carrying record resolves to its header stamp, and the step
equation holds at a concrete state. -/
theorem time_source_selection_witness :
    resolveTime { topic := "/h", data := some msgWithHeader, timestamp := 999 } =
      headerStamp msgWithHeader ∧
    resolveTime { topic := "/a", data := some msgX, timestamp := 5 } = some 5 ∧
    stepMsg initState { topic := "/a", data := some msgX, timestamp := 5 } =
      (match resolveTime { topic := "/a", data := some msgX, timestamp := 5 } with
        | none => .error { initState with files := ensureFile initState.files "/a" msgX }
        | some t => .ok { files := appendRow (ensureFile initState.files "/a" msgX) "/a"
                            (t - initState.startTime.getD t, flatVals msgX),
                          startTime := some (initState.startTime.getD t),
                          msgCount := initState.msgCount + 1 }) :=
  ⟨time_source_selection.1 _ msgWithHeader rfl rfl,
   time_source_selection.2.1 _ msgX rfl rfl,
   time_source_selection.2.2.1 initState _ msgX rfl rfl⟩
